import Mathlib

/-!
Verification of the surrogate-selection engine
(`src/utils/surrogate_selection.py`).

The Python engine is shallowly embedded over exact real arithmetic:

* `standardize` embeds `StandardScaler().fit_transform` (column-wise
  zero-mean / unit-variance with population variance; sklearn replaces a
  zero scale by `1`, leaving a constant column all-zero);
* `leverage` embeds `np.diagonal(X.dot(inv(X.T.dot(X)).dot(X.T)))`;
* `score` embeds the LARD metric `np.dot(h, min(cdist(X, X[s]), axis=1)) / N`;
* `select` embeds the strategy dispatch, including Python's banker's
  rounding of the requested count and the failure modes of the numpy and
  sklearn calls it delegates to (`Except` values stand for the exceptions
  those libraries raise).

Two sources of nondeterminism are passed in explicitly as oracle
arguments: `rand` stands for the permutation drawn by
`np.random.choice(N, k, replace=False)` (the selection is its first `k`
entries), and `clu` stands for the label vector returned by
`AgglomerativeClustering.fit_predict`; theorems assume of those arguments
exactly what the libraries guarantee.  `np.argpartition` is deterministic
but its tie order is unspecified; it is modelled by the canonical
selection that sorts by value with index tie-break, which satisfies the
documented partition contract.
-/

namespace SurrogateSelection

open Matrix

/-- Python's built-in `round`: round half to even (banker's rounding),
as applied in `select` via `round(n * X_size if n < 1 else n)`. -/
def roundHalfEven (q : ℚ) : ℤ :=
  if q - ⌊q⌋ < 1/2 then ⌊q⌋
  else if 1/2 < q - ⌊q⌋ then ⌊q⌋ + 1
  else if Even ⌊q⌋ then ⌊q⌋ else ⌊q⌋ + 1

/-- The effective count computed by `select`:
`n_eff = round(n * X_size if n < 1 else n)`. -/
def n_eff (N : ℕ) (n : ℚ) : ℤ :=
  if n < 1 then roundHalfEven (n * N) else roundHalfEven n

/-- `StandardScaler().fit_transform(data)`: per column, subtract the mean
and divide by the population standard deviation; a zero standard
deviation is replaced by `1` (sklearn's `_handle_zeros_in_scale`). -/
noncomputable def standardize {N D : ℕ} (data : Matrix (Fin N) (Fin D) ℝ) :
    Matrix (Fin N) (Fin D) ℝ :=
  Matrix.of fun i j =>
    let μ : ℝ := (∑ k, data k j) / N
    let σ : ℝ := Real.sqrt ((∑ k, (data k j - μ) ^ 2) / N)
    (data i j - μ) / (if σ = 0 then 1 else σ)

/-- The covariance-structure matrix `X.T.dot(X)` inverted in `__init__`. -/
noncomputable def gram {N D : ℕ} (X : Matrix (Fin N) (Fin D) ℝ) :
    Matrix (Fin D) (Fin D) ℝ :=
  Xᵀ * X

/-- The leverage vector computed in `__init__`:
`h = np.diagonal(X.dot(np.linalg.inv(X.T.dot(X)).dot(X.T)))`. -/
noncomputable def leverage {N D : ℕ} (X : Matrix (Fin N) (Fin D) ℝ)
    (i : Fin N) : ℝ :=
  (X * ((gram X)⁻¹ * Xᵀ)) i i

/-- The state a `SurrogateSelection` instance holds after `__init__`:
the standardized matrix `self.X` and the leverage vector `self.h`. -/
structure Engine (N D : ℕ) where
  X : Matrix (Fin N) (Fin D) ℝ
  h : Fin N → ℝ

/-- The fitted state produced by a successful `__init__`. -/
noncomputable def engineOf {N D : ℕ} (data : Matrix (Fin N) (Fin D) ℝ) :
    Engine N D :=
  ⟨standardize data, leverage (standardize data)⟩

/-- Abstract error kinds (spec section 7).  The Python code delegates the
checks to numpy/scipy/sklearn, whose exceptions these constructors stand
for: `singularCovariance` is `np.linalg.LinAlgError` from `np.linalg.inv`;
`kthOutOfBounds` is the `ValueError` from `np.argpartition` when `kth` is
out of range; `sampleTooLarge` is the `ValueError` from
`np.random.choice` when the sample size is invalid; `badClusterCount` and
`emptyCluster` are the sklearn/numpy failures of the hierarchical branch;
`emptyReduction` is the `ValueError` from `np.min` over an empty axis
when `score` is reached with no surrogates. -/
inductive SelError where
  | singularCovariance
  | kthOutOfBounds
  | sampleTooLarge
  | badClusterCount
  | emptyCluster
  | emptyReduction
  | invalidCount
  deriving DecidableEq

/-- `__init__`: standardize, then invert `X.T.dot(X)`.  `np.linalg.inv`
raises (`LinAlgError`, the spec's `SingularCovarianceError`) exactly when
the matrix is singular, i.e. has zero determinant. -/
noncomputable def fit {N D : ℕ} (data : Matrix (Fin N) (Fin D) ℝ) :
    Except SelError (Engine N D) :=
  if (gram (standardize data)).det = 0 then .error .singularCovariance
  else .ok (engineOf data)

/-- Euclidean distance between rows `i` and `j` of `X`
(one entry of `scipy.spatial.distance.cdist(X, X[s])`). -/
noncomputable def edist {N D : ℕ} (X : Matrix (Fin N) (Fin D) ℝ)
    (i j : Fin N) : ℝ :=
  Real.sqrt (∑ k, (X i k - X j k) ^ 2)

/-- `np.min` of a vector given as a list; numpy raises on an empty
reduction, which callers of this model handle separately, so the empty
case here is junk. -/
noncomputable def listMin : List ℝ → ℝ
  | [] => 0
  | a :: t => t.foldl min a

/-- `score(s) = np.dot(self.h, np.min(cdist(self.X, self.X[s]), axis=1))
/ self.X.shape[0]`. -/
noncomputable def score {N D : ℕ} (e : Engine N D) (s : List (Fin N)) : ℝ :=
  (∑ i, e.h i * listMin (s.map fun j => edist e.X i j)) / N

/-- The ordering by which the argpartition model ranks indices: by
leverage value, with the row index breaking ties. -/
def hOrd {N : ℕ} (h : Fin N → ℝ) (i j : Fin N) : Prop :=
  h i < h j ∨ (h i = h j ∧ i ≤ j)

noncomputable instance {N : ℕ} (h : Fin N → ℝ) : DecidableRel (hOrd h) :=
  fun _ _ => by unfold hOrd; exact inferInstance

instance {N : ℕ} (h : Fin N → ℝ) : IsTotal (Fin N) (hOrd h) :=
  ⟨fun i j => by
    rcases lt_trichotomy (h i) (h j) with hlt | heq | hgt
    · exact Or.inl (Or.inl hlt)
    · rcases le_total i j with hij | hji
      · exact Or.inl (Or.inr ⟨heq, hij⟩)
      · exact Or.inr (Or.inr ⟨heq.symm, hji⟩)
    · exact Or.inr (Or.inl hgt)⟩

instance {N : ℕ} (h : Fin N → ℝ) : IsTrans (Fin N) (hOrd h) :=
  ⟨fun a b c hab hbc => by
    rcases hab with hab | ⟨hab, hab'⟩ <;> rcases hbc with hbc | ⟨hbc, hbc'⟩
    · exact Or.inl (hab.trans hbc)
    · exact Or.inl (hbc ▸ hab)
    · exact Or.inl (hab ▸ hbc)
    · exact Or.inr ⟨hab.trans hbc, hab'.trans hbc'⟩⟩

/-- The canonical model of `np.argpartition(h, kth)`'s output order: all
row indices ranked by leverage (ties by index).  Any prefix of it is a
valid argpartition prefix for the corresponding `kth`. -/
noncomputable def sortedIdx {N : ℕ} (h : Fin N → ℝ) : List (Fin N) :=
  List.insertionSort (hOrd h) (List.finRange N)

/-- `_lowest_n_leverage(n) = np.argpartition(self.h, n, axis=0)[:n:]`.
`np.argpartition` raises when `kth = n` is out of bounds, i.e. unless
`n < N` (negative counts never arise from the claims considered). -/
noncomputable def lowest_n_leverage {N : ℕ} (h : Fin N → ℝ) (k : ℕ) :
    Except SelError (List (Fin N)) :=
  if k < N then .ok ((sortedIdx h).take k) else .error .kthOutOfBounds

/-- `_highest_n_leverage(n) = np.argpartition(self.h, -n, axis=0)[-n::]`.
`kth = -n` is in bounds whenever `n ≤ N`; the slice `[-n::]` is the last
`n` positions for `n ≥ 1`, but for `n = 0` it is `[-0::] = [0:]`, the
whole array. -/
noncomputable def highest_n_leverage {N : ℕ} (h : Fin N → ℝ) (k : ℕ) :
    Except SelError (List (Fin N)) :=
  if k ≤ N then
    .ok (if k = 0 then sortedIdx h else (sortedIdx h).drop (N - k))
  else .error .kthOutOfBounds

/-- `np.where(clusters == cl)[0]`: the members of cluster `cl`, in
ascending row order. -/
def clusterMembers (N : ℕ) (clu : Fin N → ℕ) (cl : ℕ) : List (Fin N) :=
  (List.finRange N).filter fun i => clu i = cl

/-- `np.mean(x, axis=0)` over the rows listed in `l`. -/
noncomputable def centroid {N D : ℕ} (X : Matrix (Fin N) (Fin D) ℝ)
    (l : List (Fin N)) (j : Fin D) : ℝ :=
  (l.map fun i => X i j).sum / l.length

/-- Distance from row `i` to the centroid of the rows listed in `l`
(one entry of `cdist(x, np.mean(x, axis=0).reshape(1, -1))`). -/
noncomputable def distToCentroid {N D : ℕ} (X : Matrix (Fin N) (Fin D) ℝ)
    (l : List (Fin N)) (i : Fin N) : ℝ :=
  Real.sqrt (∑ k, (X i k - centroid X l k) ^ 2)

/-- `np.argmin` over a list keyed by `d`, returning the element rather
than its position: the fold keeps the earliest element among those with
the minimal key, matching `np.argmin`'s first-occurrence rule. -/
noncomputable def argminList {α : Type} (d : α → ℝ) (a : α) (t : List α) : α :=
  t.foldl (fun best m => if d m < d best then m else best) a

/-- `_medoid` applied to cluster `l`, composed with the lookup
`idx[...]`: the member of `l` nearest to the centroid of `l` (`none` for
an empty cluster, where numpy's reduction would raise). -/
noncomputable def medoidIdx {N D : ℕ} (X : Matrix (Fin N) (Fin D) ℝ)
    (l : List (Fin N)) : Option (Fin N) :=
  match l with
  | [] => none
  | a :: t => some (argminList (distToCentroid X l) a t)

/-- The list comprehension
`[idx[self._medoid(self.X[idx])] for idx in cl_idx]` over the given
cluster labels. -/
noncomputable def pickMedoids {N D : ℕ} (X : Matrix (Fin N) (Fin D) ℝ)
    (clu : Fin N → ℕ) : List ℕ → Option (List (Fin N))
  | [] => some []
  | cl :: cls =>
    match medoidIdx X (clusterMembers N clu cl), pickMedoids X clu cls with
    | some r, some t => some (r :: t)
    | _, _ => none

/-- The `match strategy` dispatch inside `select`.  Strategy identifiers
are the `StrEnum` string values; anything that matches none of the four
explicit `case` arms falls through to the random default.  `rand` is the
permutation underlying the `np.random.choice` draw; `clu` is the
labelling returned by `AgglomerativeClustering.fit_predict` (which
requires `1 ≤ n_clusters ≤ N`). -/
noncomputable def pickSurrogates {N D : ℕ} (e : Engine N D)
    (rand : List (Fin N)) (clu : Fin N → ℕ) (k : ℕ) (strategy : String) :
    Except SelError (List (Fin N)) :=
  if strategy = "lowest" then lowest_n_leverage e.h k
  else if strategy = "highest" then highest_n_leverage e.h k
  else if strategy = "balanced" then
    match highest_n_leverage e.h (k / 2), lowest_n_leverage e.h (k - k / 2) with
    | .ok hp, .ok lp => .ok (hp ++ lp)
    | .error err, _ => .error err
    | _, .error err => .error err
  else if strategy = "hierarchical" then
    if 1 ≤ k ∧ k ≤ N then
      match pickMedoids e.X clu (List.range k) with
      | some l => .ok l
      | none => .error .emptyCluster
    else .error .badClusterCount
  else
    if k ≤ N then .ok (rand.take k) else .error .sampleTooLarge

/-- `select(n, strategy)`: resolve the effective count, dispatch on the
strategy, then score the selection (`np.min` inside `score` raises on an
empty selection, hence the `emptyReduction` case). -/
noncomputable def select {N D : ℕ} (e : Engine N D) (rand : List (Fin N))
    (clu : Fin N → ℕ) (n : ℚ) (strategy : String) :
    Except SelError (List (Fin N) × ℝ) :=
  let kZ := n_eff N n
  if kZ < 0 then .error .invalidCount else
  match pickSurrogates e rand clu kZ.toNat strategy with
  | .error err => .error err
  | .ok surrogates =>
    if surrogates = [] then .error .emptyReduction
    else .ok (surrogates, score e surrogates)

/-- Modelled from the spec (section 4.4): the distance from point `i` to
its nearest member of the subset `s`, as an infimum over members. -/
noncomputable def nearestDistSpec {N D : ℕ} (X : Matrix (Fin N) (Fin D) ℝ)
    (s : List (Fin N)) (i : Fin N) : ℝ :=
  sInf {d : ℝ | ∃ j ∈ s, edist X i j = d}

/-- Modelled from the spec (section 4.4): the LARD score as worded there
— for every point, leverage times nearest-subset distance, summed over
all `N` points and divided by `N`. -/
noncomputable def LARDSpec {N D : ℕ} (e : Engine N D) (s : List (Fin N)) : ℝ :=
  (∑ i, e.h i * nearestDistSpec e.X s i) / N

/-- Modelled from the spec's words for the BALANCED strategy: the `k`
highest-leverage indices — for `k = 0`, the empty list. -/
noncomputable def highestKSpec {N : ℕ} (h : Fin N → ℝ) (k : ℕ) :
    List (Fin N) :=
  (sortedIdx h).drop (N - k)

/-- Modelled from the spec's words for the BALANCED strategy: the
`⌊n_eff/2⌋` highest-leverage indices followed by the remaining
`⌈n_eff/2⌉` lowest-leverage indices. -/
noncomputable def balancedSpec {N : ℕ} (h : Fin N → ℝ) (k : ℕ) :
    List (Fin N) :=
  highestKSpec h (k / 2) ++ (sortedIdx h).take (k - k / 2)

/-- A successful selection outcome of exactly `k` distinct in-range
indices. -/
def goodSelection {N : ℕ} (k : ℕ)
    (r : Except SelError (List (Fin N) × ℝ)) : Prop :=
  ∃ l sc, r = .ok (l, sc) ∧ l.length = k ∧ l.Nodup ∧ ∀ i ∈ l, (i : ℕ) < N

/-- The concrete 4×1 data matrix `[[0], [0], [4], [4]]` used as a test
vehicle: rows 0/1 and rows 2/3 coincide, and its standardization is the
column `(-1, -1, 1, 1)`. -/
noncomputable def data4 : Matrix (Fin 4) (Fin 1) ℝ := !![0; 0; 4; 4]

/-- The engine fitted on `data4`. -/
noncomputable def e4 : Engine 4 1 := engineOf data4

/-- A concrete random-draw oracle for `N = 4`. -/
def rand4 : List (Fin 4) := [0, 1, 2, 3]

/-- A concrete two-cluster labelling for `N = 4`. -/
def clu4 : Fin 4 → ℕ := fun i => i.val % 2

/-- A concrete 1×2 data matrix with fewer rows than columns. -/
noncomputable def data12 : Matrix (Fin 1) (Fin 2) ℝ := !![0, 0]

section Helpers

variable {N D : ℕ}

lemma roundHalfEven_intCast (z : ℤ) : roundHalfEven (z : ℚ) = z := by
  unfold roundHalfEven
  rw [Int.floor_intCast]
  norm_num

lemma n_eff_natCast (k : ℕ) (hk : 1 ≤ k) : n_eff N (k : ℚ) = k := by
  unfold n_eff
  rw [if_neg (by exact_mod_cast Nat.not_lt.mpr hk)]
  exact_mod_cast roundHalfEven_intCast (k : ℤ)

lemma sortedIdx_perm (h : Fin N → ℝ) : List.Perm (sortedIdx h) (List.finRange N) :=
  List.perm_insertionSort _ _

lemma sortedIdx_length (h : Fin N → ℝ) : (sortedIdx h).length = N := by
  rw [(sortedIdx_perm h).length_eq, List.length_finRange]

lemma sortedIdx_nodup (h : Fin N → ℝ) : (sortedIdx h).Nodup :=
  (sortedIdx_perm h).nodup_iff.mpr (List.nodup_finRange N)

lemma mem_sortedIdx (h : Fin N → ℝ) (i : Fin N) : i ∈ sortedIdx h :=
  (sortedIdx_perm h).mem_iff.mpr (List.mem_finRange i)

lemma sortedIdx_sorted (h : Fin N → ℝ) :
    List.Sorted (hOrd h) (sortedIdx h) :=
  List.sorted_insertionSort _ _

lemma sortedIdx_ne_nil (h : Fin N → ℝ) (hN : 1 ≤ N) : sortedIdx h ≠ [] := by
  intro hnil
  have := sortedIdx_length h
  rw [hnil] at this
  simp at this
  omega

lemma listMin_cons (a : ℝ) (t : List ℝ) (ht : t ≠ []) :
    listMin (a :: t) = min a (listMin t) := by
  induction t generalizing a with
  | nil => exact absurd rfl ht
  | cons b t' ih =>
    by_cases h' : t' = []
    · subst h'
      simp [listMin, List.foldl]
    · have h1 : listMin (a :: b :: t') = listMin (min a b :: t') := by
        simp [listMin, List.foldl]
      rw [h1, ih _ h', ih _ h', min_assoc]

lemma listMin_mem (l : List ℝ) (hl : l ≠ []) : listMin l ∈ l := by
  induction l with
  | nil => exact absurd rfl hl
  | cons a t ih =>
    by_cases ht : t = []
    · subst ht; simp [listMin]
    · rw [listMin_cons a t ht]
      rcases min_cases a (listMin t) with ⟨hmin, _⟩ | ⟨hmin, _⟩
      · rw [hmin]; exact List.mem_cons_self a t
      · rw [hmin]; exact List.mem_cons_of_mem a (ih ht)

lemma listMin_le (l : List ℝ) (x : ℝ) (hx : x ∈ l) : listMin l ≤ x := by
  induction l with
  | nil => cases hx
  | cons a t ih =>
    by_cases ht : t = []
    · subst ht
      rcases List.mem_singleton.mp hx with rfl
      simp [listMin]
    · rw [listMin_cons a t ht]
      rcases List.mem_cons.mp hx with rfl | hx'
      · exact min_le_left _ _
      · exact le_trans (min_le_right _ _) (ih hx')

lemma listMin_append_le (l l' : List ℝ) (hl : l ≠ []) :
    listMin (l ++ l') ≤ listMin l := by
  apply listMin_le
  exact List.mem_append_left l' (listMin_mem l hl)

lemma listMin_eq_sInf (l : List ℝ) (hl : l ≠ []) :
    listMin l = sInf {x | x ∈ l} := by
  induction l with
  | nil => exact absurd rfl hl
  | cons a t ih =>
    have hset : {x : ℝ | x ∈ a :: t} = insert a {x | x ∈ t} := by
      ext x; simp
    by_cases ht : t = []
    · subst ht
      simp [listMin, hset]
    · rw [listMin_cons a t ht, hset, ih ht]
      have hfin : {x : ℝ | x ∈ t}.Finite := t.finite_toSet
      have hne : {x : ℝ | x ∈ t}.Nonempty := by
        obtain ⟨y, hy⟩ := List.exists_mem_of_ne_nil t ht
        exact ⟨y, hy⟩
      rw [csInf_insert hfin.bddBelow hne]

lemma edist_self (X : Matrix (Fin N) (Fin D) ℝ) (i : Fin N) :
    edist X i i = 0 := by
  simp [edist]

lemma edist_nonneg (X : Matrix (Fin N) (Fin D) ℝ) (i j : Fin N) :
    0 ≤ edist X i j :=
  Real.sqrt_nonneg _

lemma edist_eq_of_row_eq (X : Matrix (Fin N) (Fin D) ℝ) {i j : Fin N}
    (hij : ∀ k, X i k = X j k) : edist X i j = 0 := by
  simp [edist, hij]

/-- Leverage values are nonnegative: the hat-matrix diagonal entry at
`i` is the quadratic form of `(XᵀX)⁻¹` at row `i` of `X`, and that
inverse is positive semidefinite (it is zero when the Gram matrix is
singular). -/
lemma leverage_nonneg (X : Matrix (Fin N) (Fin D) ℝ) (i : Fin N) :
    0 ≤ leverage X i := by
  classical
  set M := gram X with hM
  set v : Fin D → ℝ := fun j => X i j with hv
  have hlev : leverage X i = v ⬝ᵥ M⁻¹.mulVec v := by
    simp [leverage, Matrix.mul_apply, Matrix.mulVec, dotProduct,
      Matrix.transpose_apply, hv, hM, Finset.mul_sum]
  rw [hlev]
  by_cases hdet : IsUnit M.det
  · set w : Fin D → ℝ := M⁻¹.mulVec v with hw
    have hvw : M.mulVec w = v := by
      rw [hw, Matrix.mulVec_mulVec, Matrix.mul_nonsing_inv M hdet,
        Matrix.one_mulVec]
    have hquad : v ⬝ᵥ M⁻¹.mulVec v = (X.mulVec w) ⬝ᵥ (X.mulVec w) := by
      calc v ⬝ᵥ M⁻¹.mulVec v = v ⬝ᵥ w := by rw [hw]
        _ = (M.mulVec w) ⬝ᵥ w := by rw [hvw]
        _ = ((Xᵀ * X).mulVec w) ⬝ᵥ w := by rw [hM, gram]
        _ = (Xᵀ.mulVec (X.mulVec w)) ⬝ᵥ w := by
              rw [← Matrix.mulVec_mulVec]
        _ = ((X.mulVec w) ᵥ* X) ⬝ᵥ w := by rw [Matrix.mulVec_transpose]
        _ = (X.mulVec w) ⬝ᵥ (X.mulVec w) := by
              rw [← Matrix.dotProduct_mulVec]
    rw [hquad]
    exact Finset.sum_nonneg fun k _ => mul_self_nonneg _
  · rw [Matrix.nonsing_inv_apply_not_isUnit M hdet]
    simp

lemma argminList_mem {α : Type} (d : α → ℝ) (a : α) (t : List α) :
    argminList d a t ∈ a :: t := by
  induction t generalizing a with
  | nil => simp [argminList]
  | cons m t' ih =>
    have hstep : argminList d a (m :: t') =
        argminList d (if d m < d a then m else a) t' := by
      simp [argminList]
    rw [hstep]
    rcases List.mem_cons.mp (ih (if d m < d a then m else a)) with he | ht
    · rw [he]
      by_cases hdm : d m < d a
      · simp [hdm]
      · simp [hdm]
    · exact List.mem_cons_of_mem _ (List.mem_cons_of_mem _ ht)

/-- The fold in `argminList` computes `np.argmin`: a minimiser of the
key, and among equal keys the earliest in list order (for a strictly
ascending list, the least element). -/
lemma argminList_spec {N : ℕ} (d : Fin N → ℝ) (a : Fin N) (t : List (Fin N))
    (hst : List.Sorted (· < ·) t) (ha : ∀ x ∈ t, a < x) :
    (∀ x ∈ a :: t, d (argminList d a t) ≤ d x) ∧
    (∀ x ∈ a :: t, d x = d (argminList d a t) → argminList d a t ≤ x) := by
  induction t generalizing a with
  | nil =>
    constructor
    · intro x hx
      rcases List.mem_singleton.mp hx with rfl
      simp [argminList]
    · intro x hx _
      rcases List.mem_singleton.mp hx with rfl
      simp [argminList]
  | cons m t' ih =>
    have hst' : List.Sorted (· < ·) t' := (List.sorted_cons.mp hst).2
    have hmt' : ∀ x ∈ t', m < x := (List.sorted_cons.mp hst).1
    have ham : a < m := ha m (List.mem_cons_self m t')
    set a' : Fin N := if d m < d a then m else a with ha'
    have hstep : argminList d a (m :: t') = argminList d a' t' := by
      simp [argminList, ha']
    have ha't' : ∀ x ∈ t', a' < x := by
      intro x hx
      by_cases hdm : d m < d a
      · simpa [ha', hdm] using hmt' x hx
      · simpa [ha', hdm] using ha x (List.mem_cons_of_mem m hx)
    obtain ⟨ihmin, ihtie⟩ := ih a' hst' ha't'
    set r : Fin N := argminList d a' t' with hr
    have hra' : d r ≤ d a' := ihmin a' (List.mem_cons_self a' t')
    have hrmin : ∀ x ∈ a :: m :: t', d r ≤ d x := by
      intro x hx
      rcases List.mem_cons.mp hx with rfl | hx'
      · by_cases hdm : d m < d x
        · exact le_trans (by simpa [ha', hdm] using hra') (le_of_lt hdm)
        · simpa [ha', hdm] using hra'
      · rcases List.mem_cons.mp hx' with rfl | hx''
        · by_cases hdm : d x < d a
          · simpa [ha', hdm] using hra'
          · exact le_trans (by simpa [ha', hdm] using hra')
              (le_of_not_lt hdm)
        · exact ihmin x (List.mem_cons_of_mem a' hx'')
    rw [hstep]
    refine ⟨hrmin, ?_⟩
    intro x hx hdx
    rcases List.mem_cons.mp hx with rfl | hx'
    · by_cases hdm : d m < d x
      · have hrm : d r ≤ d m := by simpa [ha', hdm] using hra'
        exact absurd hdx (by intro he; linarith)
      · exact ihtie x (by simp [ha', hdm]) hdx
    · rcases List.mem_cons.mp hx' with rfl | hx''
      · by_cases hdm : d x < d a
        · exact ihtie x (by simp [ha', hdm]) hdx
        · have hax : d a ≤ d x := le_of_not_lt hdm
          have hra : d r ≤ d a := by simpa [ha', hdm] using hra'
          have hdar : d a = d r := by linarith
          have hrla : r ≤ a := ihtie a (by simp [ha', hdm]) hdar
          exact le_of_lt (lt_of_le_of_lt hrla ham)
      · exact ihtie x (List.mem_cons_of_mem a' hx'') hdx

lemma clusterMembers_sorted (clu : Fin N → ℕ) (cl : ℕ) :
    List.Sorted (· < ·) (clusterMembers N clu cl) :=
  (List.pairwise_lt_finRange N).filter _

lemma clu_of_mem_clusterMembers {clu : Fin N → ℕ} {cl : ℕ} {i : Fin N}
    (hi : i ∈ clusterMembers N clu cl) : clu i = cl := by
  have := (List.mem_filter.mp hi).2
  simpa using this

lemma medoidIdx_ok {X : Matrix (Fin N) (Fin D) ℝ} {l : List (Fin N)}
    (hl : l ≠ []) : ∃ r, medoidIdx X l = some r ∧ r ∈ l := by
  obtain ⟨a, t, rfl⟩ := List.exists_cons_of_ne_nil hl
  exact ⟨argminList (distToCentroid X (a :: t)) a t, rfl, argminList_mem _ _ _⟩

lemma pickMedoids_ok (X : Matrix (Fin N) (Fin D) ℝ) (clu : Fin N → ℕ) :
    ∀ cls : List ℕ, (∀ cl ∈ cls, clusterMembers N clu cl ≠ []) →
      ∃ l, pickMedoids X clu cls = some l ∧ l.length = cls.length ∧
        l.map clu = cls := by
  intro cls
  induction cls with
  | nil => exact fun _ => ⟨[], rfl, rfl, rfl⟩
  | cons cl cls ih =>
    intro hne
    have hcl : clusterMembers N clu cl ≠ [] := hne cl (List.mem_cons_self _ _)
    obtain ⟨r, hr, hrmem⟩ := medoidIdx_ok (X := X) hcl
    obtain ⟨l, hl, hlen, hmap⟩ := ih fun c hc => hne c (List.mem_cons_of_mem _ hc)
    refine ⟨r :: l, ?_, by simp [hlen], ?_⟩
    · simp only [pickMedoids, hr, hl]
    · simp [hmap, clu_of_mem_clusterMembers hrmem]

/-- A square real matrix of full rank has invertible determinant. -/
lemma isUnit_det_of_rank_eq (M : Matrix (Fin D) (Fin D) ℝ)
    (hrk : M.rank = D) : IsUnit M.det := by
  by_contra hcon
  have hdet : M.det = 0 := by simpa [isUnit_iff_ne_zero] using hcon
  obtain ⟨v, hv0, hv⟩ := Matrix.exists_mulVec_eq_zero_iff.mpr hdet
  have hker : v ∈ LinearMap.ker M.mulVecLin := by
    simpa [Matrix.mulVecLin_apply] using hv
  have hpos : 0 < Module.finrank ℝ (LinearMap.ker M.mulVecLin) :=
    Module.finrank_pos_iff_exists_ne_zero.mpr
      ⟨⟨v, hker⟩, by simpa [Subtype.ext_iff] using hv0⟩
  have hsum := LinearMap.finrank_range_add_finrank_ker M.mulVecLin
  rw [Module.finrank_pi] at hsum
  have hrange : Module.finrank ℝ (LinearMap.range M.mulVecLin) = D := hrk
  rw [hrange, Fintype.card_fin] at hsum
  omega

/-- The trace identity behind the sum of leverages:
`trace (X (XᵀX)⁻¹ Xᵀ) = trace ((XᵀX)⁻¹ (XᵀX)) = trace I = D` when the
Gram matrix is invertible. -/
lemma sum_leverage_of_isUnit (X : Matrix (Fin N) (Fin D) ℝ)
    (hdet : IsUnit (gram X).det) :
    ∑ i, leverage X i = D := by
  have h1 : ∑ i, leverage X i = Matrix.trace (X * ((gram X)⁻¹ * Xᵀ)) := by
    simp [leverage, Matrix.trace, Matrix.diag]
  rw [h1, Matrix.trace_mul_comm, Matrix.mul_assoc, ← gram,
    Matrix.nonsing_inv_mul _ hdet, Matrix.trace_one, Fintype.card_fin]

lemma sqrt_four : Real.sqrt 4 = 2 := by
  rw [show (4 : ℝ) = 2 ^ 2 by norm_num, Real.sqrt_sq (by norm_num : (0:ℝ) ≤ 2)]

lemma data4_sum : ∑ k : Fin 4, data4 k 0 = 8 := by
  simp [Fin.sum_univ_four, data4, Matrix.vecHead, Matrix.vecTail]
  norm_num

lemma X4_eq : standardize data4 = !![(-1 : ℝ); -1; 1; 1] := by
  have hvar2 : ∑ k : Fin 4, (data4 k 0 - 2) ^ 2 = 16 := by
    simp [Fin.sum_univ_four, data4, Matrix.vecHead, Matrix.vecTail]
    norm_num
  funext i j
  fin_cases j
  simp only [standardize, Matrix.of_apply, Fin.zero_eta, Fin.isValue,
    data4_sum, Nat.cast_ofNat]
  rw [show (8 : ℝ) / 4 = 2 by norm_num, hvar2,
    show (16 : ℝ) / 4 = 4 by norm_num, sqrt_four,
    if_neg (two_ne_zero)]
  fin_cases i <;> norm_num [data4, Matrix.vecHead, Matrix.vecTail]

lemma hOrd_le {h : Fin N → ℝ} {i j : Fin N} (hij : hOrd h i j) :
    h i ≤ h j := by
  rcases hij with hlt | ⟨heq, _⟩
  · exact le_of_lt hlt
  · exact le_of_eq heq

end Helpers

section SelectLemmas

variable {N D : ℕ} (e : Engine N D) (rand : List (Fin N)) (clu : Fin N → ℕ)

lemma pick_lowest (k : ℕ) (hk : k < N) :
    pickSurrogates e rand clu k "lowest" = .ok ((sortedIdx e.h).take k) := by
  unfold pickSurrogates lowest_n_leverage
  rw [if_pos rfl, if_pos hk]

lemma pick_lowest_err (k : ℕ) (hk : ¬ k < N) :
    pickSurrogates e rand clu k "lowest" = .error .kthOutOfBounds := by
  unfold pickSurrogates lowest_n_leverage
  rw [if_pos rfl, if_neg hk]

lemma pick_highest_pos (k : ℕ) (hk0 : k ≠ 0) (hkN : k ≤ N) :
    pickSurrogates e rand clu k "highest" =
      .ok ((sortedIdx e.h).drop (N - k)) := by
  unfold pickSurrogates highest_n_leverage
  rw [if_neg (by decide), if_pos rfl, if_pos hkN, if_neg hk0]

lemma pick_highest_zero :
    pickSurrogates e rand clu 0 "highest" = .ok (sortedIdx e.h) := by
  unfold pickSurrogates highest_n_leverage
  rw [if_neg (by decide), if_pos rfl, if_pos (Nat.zero_le N), if_pos rfl]

lemma pick_highest_err (k : ℕ) (hk : ¬ k ≤ N) :
    pickSurrogates e rand clu k "highest" = .error .kthOutOfBounds := by
  unfold pickSurrogates highest_n_leverage
  rw [if_neg (by decide), if_pos rfl, if_neg hk]

lemma pick_balanced (k : ℕ) (hk2 : 2 ≤ k) (hkN : k ≤ N) :
    pickSurrogates e rand clu k "balanced" =
      .ok ((sortedIdx e.h).drop (N - k / 2) ++
        (sortedIdx e.h).take (k - k / 2)) := by
  unfold pickSurrogates
  rw [if_neg (by decide), if_neg (by decide), if_pos rfl]
  have h1 : highest_n_leverage e.h (k / 2) =
      .ok ((sortedIdx e.h).drop (N - k / 2)) := by
    unfold highest_n_leverage
    rw [if_pos (le_trans (Nat.div_le_self k 2) hkN), if_neg (by omega)]
  have h2 : lowest_n_leverage e.h (k - k / 2) =
      .ok ((sortedIdx e.h).take (k - k / 2)) := by
    unfold lowest_n_leverage
    rw [if_pos (by omega)]
  rw [h1, h2]

lemma pick_balanced_one (h1N : 1 < N) :
    pickSurrogates e rand clu 1 "balanced" =
      .ok (sortedIdx e.h ++ (sortedIdx e.h).take 1) := by
  unfold pickSurrogates
  rw [if_neg (by decide), if_neg (by decide), if_pos rfl]
  have h1 : highest_n_leverage e.h (1 / 2) = .ok (sortedIdx e.h) := by
    unfold highest_n_leverage
    rw [if_pos (Nat.zero_le N), if_pos rfl]
  have h2 : lowest_n_leverage e.h (1 - 1 / 2) =
      .ok ((sortedIdx e.h).take 1) := by
    unfold lowest_n_leverage
    rw [if_pos (by omega)]
  rw [h1, h2]

lemma pick_hierarchical (k : ℕ) (hk1 : 1 ≤ k) (hkN : k ≤ N)
    (hclu : ∀ cl < k, clusterMembers N clu cl ≠ []) :
    ∃ l, pickSurrogates e rand clu k "hierarchical" = .ok l ∧
      l.length = k ∧ l.map clu = List.range k := by
  obtain ⟨l, hpm, hlen, hmap⟩ := pickMedoids_ok e.X clu (List.range k)
    (fun cl hc => hclu cl (List.mem_range.mp hc))
  refine ⟨l, ?_, by simpa using hlen, hmap⟩
  unfold pickSurrogates
  rw [if_neg (by decide), if_neg (by decide), if_neg (by decide), if_pos rfl,
    if_pos ⟨hk1, hkN⟩, hpm]

lemma pick_default (k : ℕ) (strategy : String)
    (hus : strategy ≠ "lowest" ∧ strategy ≠ "highest" ∧
      strategy ≠ "balanced" ∧ strategy ≠ "hierarchical") (hkN : k ≤ N) :
    pickSurrogates e rand clu k strategy = .ok (rand.take k) := by
  unfold pickSurrogates
  rw [if_neg hus.1, if_neg hus.2.1, if_neg hus.2.2.1, if_neg hus.2.2.2,
    if_pos hkN]

lemma pick_default_err (k : ℕ) (strategy : String)
    (hus : strategy ≠ "lowest" ∧ strategy ≠ "highest" ∧
      strategy ≠ "balanced" ∧ strategy ≠ "hierarchical") (hkN : ¬ k ≤ N) :
    pickSurrogates e rand clu k strategy = .error .sampleTooLarge := by
  unfold pickSurrogates
  rw [if_neg hus.1, if_neg hus.2.1, if_neg hus.2.2.1, if_neg hus.2.2.2,
    if_neg hkN]

lemma select_of_pick_ok (n : ℚ) (strategy : String)
    (h0 : 0 ≤ n_eff N n) (l : List (Fin N))
    (hpick : pickSurrogates e rand clu (n_eff N n).toNat strategy = .ok l)
    (hne : l ≠ []) :
    select e rand clu n strategy = .ok (l, score e l) := by
  simp only [select]
  rw [if_neg (by omega), hpick]
  show (if l = [] then Except.error SelError.emptyReduction
    else Except.ok (l, score e l)) = Except.ok (l, score e l)
  rw [if_neg hne]

lemma select_of_pick_ok_empty (n : ℚ) (strategy : String)
    (h0 : 0 ≤ n_eff N n)
    (hpick : pickSurrogates e rand clu (n_eff N n).toNat strategy = .ok []) :
    select e rand clu n strategy = .error .emptyReduction := by
  simp only [select]
  rw [if_neg (by omega), hpick]
  show (if ([] : List (Fin N)) = [] then Except.error SelError.emptyReduction
    else Except.ok (([] : List (Fin N)), score e [])) =
      Except.error SelError.emptyReduction
  rw [if_pos rfl]

lemma select_of_pick_err (n : ℚ) (strategy : String)
    (h0 : 0 ≤ n_eff N n) (err : SelError)
    (hpick : pickSurrogates e rand clu (n_eff N n).toNat strategy
      = .error err) :
    select e rand clu n strategy = .error err := by
  simp only [select]
  rw [if_neg (by omega), hpick]

lemma n_eff_natCast_toNat (k : ℕ) (hk : 1 ≤ k) :
    (n_eff N (k : ℚ)).toNat = k := by
  rw [n_eff_natCast k hk, Int.toNat_natCast]

end SelectLemmas

section ConcreteFacts

lemma e4_X : e4.X = !![(-1 : ℝ); -1; 1; 1] := X4_eq

lemma e4_row01 : ∀ k, e4.X 1 k = e4.X 0 k := by
  intro k
  fin_cases k
  rw [e4_X]
  norm_num [Matrix.vecHead, Matrix.vecTail]

lemma e4_row23 : ∀ k, e4.X 3 k = e4.X 2 k := by
  intro k
  fin_cases k
  rw [e4_X]
  norm_num [Matrix.vecHead, Matrix.vecTail]

lemma listMin_pair (a b : ℝ) : listMin [a, b] = min a b := rfl

end ConcreteFacts

section Claims

/-- C2: for every fitted engine state and every non-empty subset `s` of
valid row indices, `score(s)` equals the sum over all `N` points of
leverage times the Euclidean distance (in standardized feature space) to
the nearest member of `s`, divided by `N`; and points that are themselves
in `s` are at nearest-subset distance `0`. -/
theorem score_eq_LARDSpec {N D : ℕ} (e : Engine N D) (s : List (Fin N))
    (hs : s ≠ []) :
    score e s = LARDSpec e s ∧ ∀ i ∈ s, nearestDistSpec e.X s i = 0 := by
  have hset : ∀ i : Fin N, {x : ℝ | x ∈ s.map fun j => edist e.X i j} =
      {d : ℝ | ∃ j ∈ s, edist e.X i j = d} := by
    intro i; ext x; simp [List.mem_map]
  constructor
  · unfold score LARDSpec nearestDistSpec
    congr 1
    apply Finset.sum_congr rfl
    intro i _
    rw [listMin_eq_sInf _ (by simpa using hs), hset i]
  · intro i hi
    unfold nearestDistSpec
    have hmem : (0 : ℝ) ∈ {d : ℝ | ∃ j ∈ s, edist e.X i j = d} :=
      ⟨i, hi, edist_self e.X i⟩
    have hlb : ∀ d ∈ {d : ℝ | ∃ j ∈ s, edist e.X i j = d}, (0 : ℝ) ≤ d := by
      rintro d ⟨j, _, rfl⟩
      exact edist_nonneg e.X i j
    exact le_antisymm (csInf_le ⟨0, hlb⟩ hmem) (le_csInf ⟨0, hmem⟩ hlb)

/-- Witness for `score_eq_LARDSpec` on the concrete engine `e4` with
subset `[0, 2]`. -/
theorem score_eq_LARDSpec_witness :
    score e4 [0, 2] = LARDSpec e4 [0, 2] ∧
      nearestDistSpec e4.X [0, 2] 0 = 0 :=
  ⟨(score_eq_LARDSpec e4 [0, 2] (by decide)).1,
    (score_eq_LARDSpec e4 [0, 2] (by decide)).2 0 (by decide)⟩

/-- C4: for every fitted engine, enlarging a non-empty subset by one more
index never increases the LARD score: the leverage weights are
nonnegative and a minimum over more subset members can only shrink. -/
theorem score_antitone_append {N D : ℕ} (data : Matrix (Fin N) (Fin D) ℝ)
    (s : List (Fin N)) (j : Fin N) (hs : s ≠ []) (hj : j ∉ s) :
    score (engineOf data) (s ++ [j]) ≤ score (engineOf data) s := by
  unfold score
  rw [div_eq_mul_inv, div_eq_mul_inv]
  apply mul_le_mul_of_nonneg_right _ (inv_nonneg.mpr (Nat.cast_nonneg N))
  apply Finset.sum_le_sum
  intro i _
  have hnn : (0 : ℝ) ≤ (engineOf data).h i := leverage_nonneg (standardize data) i
  apply mul_le_mul_of_nonneg_left _ hnn
  rw [List.map_append]
  exact listMin_append_le _ _ (by simpa using hs)

/-- Witness for `score_antitone_append` on `e4`, adding index `1` to the
subset `[0]`. -/
theorem score_antitone_append_witness :
    score e4 ([0] ++ [1]) ≤ score e4 [0] :=
  score_antitone_append data4 [0] 1 (by decide) (by decide)

/-- C5 (amended): the score of a subset that contains every row index is
`0`.  The converse direction of the original claim is refuted by
`score_zero_proper_subset`. -/
theorem score_full_subset_eq_zero {N D : ℕ} (e : Engine N D)
    (s : List (Fin N)) (hfull : ∀ i : Fin N, i ∈ s) :
    score e s = 0 := by
  unfold score
  have hz : ∀ i : Fin N, listMin (s.map fun j => edist e.X i j) = 0 := by
    intro i
    have hsne : s ≠ [] := by
      intro hnil
      rw [hnil] at hfull
      exact absurd (hfull i) (List.not_mem_nil i)
    apply le_antisymm
    · apply listMin_le
      exact List.mem_map.mpr ⟨i, hfull i, edist_self e.X i⟩
    · have hmem := listMin_mem (s.map fun j => edist e.X i j)
        (by simpa using hsne)
      obtain ⟨j, _, hj⟩ := List.mem_map.mp hmem
      rw [← hj]
      exact edist_nonneg e.X i j
  rw [Finset.sum_congr rfl fun i _ => by rw [hz i, mul_zero]]
  simp

/-- Witness for `score_full_subset_eq_zero` on `e4` with the full index
list. -/
theorem score_full_subset_eq_zero_witness : score e4 [0, 1, 2, 3] = 0 :=
  score_full_subset_eq_zero e4 [0, 1, 2, 3] (by decide)

/-- C5 counterexample: on `data4`, rows 0/1 and rows 2/3 coincide after
standardization, so the proper subset `[0, 2]` already scores `0` — a
zero score does not imply that every point is a surrogate. -/
theorem score_zero_proper_subset :
    score e4 [0, 2] = 0 ∧ ¬ ∀ i : Fin 4, i ∈ ([0, 2] : List (Fin 4)) := by
  constructor
  · unfold score
    have h0 : listMin (List.map (fun j => edist e4.X 0 j) [0, 2]) = 0 := by
      simp only [List.map_cons, List.map_nil]
      rw [listMin_pair, edist_self]
      exact min_eq_left (edist_nonneg _ _ _)
    have h1 : listMin (List.map (fun j => edist e4.X 1 j) [0, 2]) = 0 := by
      simp only [List.map_cons, List.map_nil]
      rw [listMin_pair, edist_eq_of_row_eq e4.X e4_row01]
      exact min_eq_left (edist_nonneg _ _ _)
    have h2 : listMin (List.map (fun j => edist e4.X 2 j) [0, 2]) = 0 := by
      simp only [List.map_cons, List.map_nil]
      rw [listMin_pair, edist_self]
      exact min_eq_right (edist_nonneg _ _ _)
    have h3 : listMin (List.map (fun j => edist e4.X 3 j) [0, 2]) = 0 := by
      simp only [List.map_cons, List.map_nil]
      rw [listMin_pair, edist_eq_of_row_eq e4.X e4_row23]
      exact min_eq_right (edist_nonneg _ _ _)
    rw [Fin.sum_univ_four, h0, h1, h2, h3]
    norm_num
  · intro hcon
    exact absurd (hcon 1) (by decide)

/-- C7: the leverage vector of a fitted engine is indexed by the `N`
rows (each entry a real number, hence finite in this exact-arithmetic
model), and when `D < N` and the standardized matrix has full column
rank the entries sum to `D`. -/
theorem leverage_sum_eq_dim {N D : ℕ} (data : Matrix (Fin N) (Fin D) ℝ)
    (hDN : D < N) (hrank : (standardize data).rank = D) :
    ∑ i, (engineOf data).h i = D := by
  have hgr : (gram (standardize data)).rank = D := by
    rw [show (gram (standardize data)).rank = (standardize data).rank from
      Matrix.rank_transpose_mul_self _, hrank]
  exact sum_leverage_of_isUnit (standardize data)
    (isUnit_det_of_rank_eq _ hgr)

lemma X4_rank : (standardize data4).rank = 1 := by
  rw [X4_eq]
  refine le_antisymm (Matrix.rank_le_width _) ?_
  have hv : (!![(-1 : ℝ); -1; 1; 1]).mulVec (fun _ => 1) ≠ 0 := by
    intro h0
    have h2 := congrFun h0 2
    simp [Matrix.mulVec, dotProduct, Matrix.vecHead, Matrix.vecTail] at h2
  have hpos : 0 < Module.finrank ℝ
      (LinearMap.range (!![(-1 : ℝ); -1; 1; 1]).mulVecLin) :=
    Module.finrank_pos_iff_exists_ne_zero.mpr
      ⟨⟨_, LinearMap.mem_range_self _ (fun _ => 1)⟩,
        by simpa [Subtype.ext_iff, Matrix.mulVecLin_apply] using hv⟩
  have hrk : 0 < (!![(-1 : ℝ); -1; 1; 1]).rank := hpos
  omega

/-- Witness for `leverage_sum_eq_dim` on `data4` (`D = 1 < N = 4`, full
column rank). -/
theorem leverage_sum_eq_dim_witness :
    1 < 4 ∧ (standardize data4).rank = 1 ∧
      ∑ i, (engineOf data4).h i = 1 :=
  ⟨by norm_num, X4_rank, by
    have hth := leverage_sum_eq_dim data4 (by norm_num) X4_rank
    simpa using hth⟩

/-- C8: construction fails with the singular-covariance error whenever
the data matrix has two identical columns, or fewer rows than columns. -/
theorem fit_fails_on_singular {N D : ℕ} (data : Matrix (Fin N) (Fin D) ℝ)
    (hbad : (∃ j₁ j₂ : Fin D, j₁ ≠ j₂ ∧ ∀ i, data i j₁ = data i j₂) ∨
      N < D) :
    fit data = .error .singularCovariance := by
  have hdet0 : (gram (standardize data)).det = 0 := by
    rcases hbad with ⟨j₁, j₂, hne, hcol⟩ | hND
    · apply Matrix.det_zero_of_column_eq hne
      intro k
      show gram (standardize data) k j₁ = gram (standardize data) k j₂
      unfold gram
      simp only [Matrix.mul_apply, Matrix.transpose_apply]
      apply Finset.sum_congr rfl
      intro r _
      have hst : standardize data r j₁ = standardize data r j₂ := by
        simp only [standardize, Matrix.of_apply]
        simp only [hcol]
      rw [hst]
    · by_contra hdet
      have hunit : IsUnit (gram (standardize data)).det :=
        isUnit_iff_ne_zero.mpr hdet
      have h1 : (gram (standardize data)).rank = D := by
        rw [Matrix.rank_of_isUnit _
          ((Matrix.isUnit_iff_isUnit_det _).mpr hunit), Fintype.card_fin]
      have h2 : (gram (standardize data)).rank = (standardize data).rank :=
        Matrix.rank_transpose_mul_self _
      have h3 : (standardize data).rank ≤ N := Matrix.rank_le_height _
      omega
  unfold fit
  rw [if_pos hdet0]

/-- Witness for `fit_fails_on_singular` on the 1×2 matrix `data12`
(`N = 1 < D = 2`). -/
theorem fit_fails_on_singular_witness :
    fit data12 = .error .singularCovariance :=
  fit_fails_on_singular data12 (Or.inr (by norm_num))

/-- C1 (amended): with a valid effective count `k ∈ [1, N]`, `select`
returns exactly `k` distinct indices in `[0, N)` for the RANDOM (any
unknown identifier), HIGHEST and HIERARCHICAL strategies; for LOWEST this
holds only for `k ∈ [1, N-1]` (at `k = N` the `argpartition` call raises),
and for BALANCED only for `k ∈ [2, N]` (at `k = 1` the `[-0::]` slice
returns all `N` indices plus one duplicate). -/
theorem select_count_distinct {N D : ℕ} (e : Engine N D)
    (rand : List (Fin N)) (clu : Fin N → ℕ) (k : ℕ)
    (hk1 : 1 ≤ k) (hkN : k ≤ N) (hlen : rand.length = N) (hnd : rand.Nodup)
    (hclu : ∀ cl < k, clusterMembers N clu cl ≠ []) :
    goodSelection k (select e rand clu (k : ℚ) "random") ∧
    goodSelection k (select e rand clu (k : ℚ) "highest") ∧
    goodSelection k (select e rand clu (k : ℚ) "hierarchical") ∧
    (k < N → goodSelection k (select e rand clu (k : ℚ) "lowest")) ∧
    (2 ≤ k → goodSelection k (select e rand clu (k : ℚ) "balanced")) := by
  have h0 : 0 ≤ n_eff N (k : ℚ) := by
    rw [n_eff_natCast k hk1]
    omega
  have htn : (n_eff N (k : ℚ)).toNat = k := n_eff_natCast_toNat k hk1
  refine ⟨?_, ?_, ?_, ?_, ?_⟩
  · -- RANDOM
    have hl : (rand.take k).length = k := by
      rw [List.length_take, hlen]
      omega
    refine ⟨rand.take k, score e (rand.take k), ?_, hl,
      hnd.sublist (List.take_sublist k rand), fun i _ => i.isLt⟩
    apply select_of_pick_ok e rand clu _ _ h0
    · rw [htn]
      exact pick_default e rand clu k "random"
        ⟨by decide, by decide, by decide, by decide⟩ hkN
    · intro hnil
      rw [hnil] at hl
      simp at hl
      omega
  · -- HIGHEST
    have hl : ((sortedIdx e.h).drop (N - k)).length = k := by
      rw [List.length_drop, sortedIdx_length]
      omega
    refine ⟨_, score e ((sortedIdx e.h).drop (N - k)), ?_, hl,
      (sortedIdx_nodup e.h).sublist (List.drop_sublist _ _),
      fun i _ => i.isLt⟩
    apply select_of_pick_ok e rand clu _ _ h0
    · rw [htn]
      exact pick_highest_pos e rand clu k (by omega) hkN
    · intro hnil
      rw [hnil] at hl
      simp at hl
      omega
  · -- HIERARCHICAL
    obtain ⟨l, hpick, hllen, hlmap⟩ :=
      pick_hierarchical e rand clu k hk1 hkN hclu
    have hndl : l.Nodup := by
      apply List.Nodup.of_map clu
      rw [hlmap]
      exact List.nodup_range k
    refine ⟨l, score e l, ?_, hllen, hndl, fun i _ => i.isLt⟩
    apply select_of_pick_ok e rand clu _ _ h0
    · rw [htn]
      exact hpick
    · intro hnil
      rw [hnil] at hllen
      simp at hllen
      omega
  · -- LOWEST (only below N)
    intro hklt
    have hl : ((sortedIdx e.h).take k).length = k := by
      rw [List.length_take, sortedIdx_length]
      omega
    refine ⟨_, score e ((sortedIdx e.h).take k), ?_, hl,
      (sortedIdx_nodup e.h).sublist (List.take_sublist _ _),
      fun i _ => i.isLt⟩
    apply select_of_pick_ok e rand clu _ _ h0
    · rw [htn]
      exact pick_lowest e rand clu k hklt
    · intro hnil
      rw [hnil] at hl
      simp at hl
      omega
  · -- BALANCED (only from 2 upward)
    intro hk2
    have hlA : ((sortedIdx e.h).drop (N - k / 2)).length = k / 2 := by
      rw [List.length_drop, sortedIdx_length]
      omega
    have hlB : ((sortedIdx e.h).take (k - k / 2)).length = k - k / 2 := by
      rw [List.length_take, sortedIdx_length]
      omega
    have hl : ((sortedIdx e.h).drop (N - k / 2) ++
        (sortedIdx e.h).take (k - k / 2)).length = k := by
      rw [List.length_append, hlA, hlB]
      omega
    have hdisj : ((sortedIdx e.h).drop (N - k / 2)).Disjoint
        ((sortedIdx e.h).take (k - k / 2)) :=
      List.disjoint_symm
        (List.disjoint_take_drop (sortedIdx_nodup e.h) (by omega))
    refine ⟨_, score e ((sortedIdx e.h).drop (N - k / 2) ++
      (sortedIdx e.h).take (k - k / 2)), ?_, hl,
      List.Nodup.append
        ((sortedIdx_nodup e.h).sublist (List.drop_sublist _ _))
        ((sortedIdx_nodup e.h).sublist (List.take_sublist _ _)) hdisj,
      fun i _ => i.isLt⟩
    apply select_of_pick_ok e rand clu _ _ h0
    · rw [htn]
      exact pick_balanced e rand clu k hk2 hkN
    · intro hnil
      rw [hnil] at hl
      simp at hl
      omega

/-- Witness for `select_count_distinct` on `e4` with `k = 2`. -/
theorem select_count_distinct_witness :
    goodSelection 2 (select e4 rand4 clu4 ((2 : ℕ) : ℚ) "random") ∧
    goodSelection 2 (select e4 rand4 clu4 ((2 : ℕ) : ℚ) "highest") ∧
    goodSelection 2 (select e4 rand4 clu4 ((2 : ℕ) : ℚ) "hierarchical") ∧
    (2 < 4 → goodSelection 2 (select e4 rand4 clu4 ((2 : ℕ) : ℚ) "lowest")) ∧
    (2 ≤ 2 → goodSelection 2 (select e4 rand4 clu4 ((2 : ℕ) : ℚ) "balanced")) :=
  select_count_distinct e4 rand4 clu4 2 (by norm_num) (by norm_num)
    (by decide) (by decide) (by decide)

/-- C1 counterexample: on the 4-row engine `e4`, BALANCED with effective
count 1 succeeds but returns five indices instead of one, because
`_highest_n_leverage(0)` slices `[-0::]`, i.e. the whole array. -/
theorem balanced_count_one_counterexample :
    (select e4 rand4 clu4 ((1 : ℕ) : ℚ) "balanced").map
      (fun p => p.1.length) = .ok 5 := by
  have h0 : 0 ≤ n_eff 4 ((1 : ℕ) : ℚ) := by
    rw [n_eff_natCast 1 le_rfl]
    omega
  have htn : (n_eff 4 ((1 : ℕ) : ℚ)).toNat = 1 :=
    n_eff_natCast_toNat 1 le_rfl
  have hpick : pickSurrogates e4 rand4 clu4 (n_eff 4 ((1 : ℕ) : ℚ)).toNat
      "balanced" = .ok (sortedIdx e4.h ++ (sortedIdx e4.h).take 1) := by
    rw [htn]
    exact pick_balanced_one e4 rand4 clu4 (by norm_num)
  have hne : sortedIdx e4.h ++ (sortedIdx e4.h).take 1 ≠ [] := by
    intro hnil
    have hlen := congrArg List.length hnil
    rw [List.length_append, sortedIdx_length] at hlen
    simp at hlen
  rw [select_of_pick_ok e4 rand4 clu4 _ _ h0 _ hpick hne]
  simp [Except.map, List.length_append, sortedIdx_length, List.length_take]

/-- C3 (amended): an input `n ≥ 1` resolves to `round(n)` (banker's
rounding — the identity on integer counts) and an input `n < 1` resolves
to `round(n · N)` with NO minimum of `1`.  When the resolved count is `0`,
`select` raises only for some strategies (RANDOM and LOWEST fail during
scoring of the empty selection), while HIGHEST succeeds and returns all
`N` indices; when the resolved count exceeds `N`, RANDOM, LOWEST and
HIGHEST all raise. -/
theorem n_eff_resolution {D : ℕ} (e : Engine N D) (rand : List (Fin N))
    (clu : Fin N → ℕ) (hN : 1 ≤ N) :
    (∀ m : ℕ, 1 ≤ m → n_eff N (m : ℚ) = m) ∧
    (∀ n : ℚ, ¬ n < 1 → n_eff N n = roundHalfEven n) ∧
    (∀ n : ℚ, n < 1 → n_eff N n = roundHalfEven (n * N)) ∧
    (∀ n : ℚ, n_eff N n = 0 →
      select e rand clu n "random" = .error .emptyReduction ∧
      select e rand clu n "lowest" = .error .emptyReduction ∧
      select e rand clu n "highest" =
        .ok (sortedIdx e.h, score e (sortedIdx e.h))) ∧
    (∀ n : ℚ, (N : ℤ) < n_eff N n →
      select e rand clu n "random" = .error .sampleTooLarge ∧
      select e rand clu n "lowest" = .error .kthOutOfBounds ∧
      select e rand clu n "highest" = .error .kthOutOfBounds) := by
  refine ⟨fun m hm => n_eff_natCast m hm, ?_, ?_, ?_, ?_⟩
  · intro n hn
    unfold n_eff
    rw [if_neg hn]
  · intro n hn
    unfold n_eff
    rw [if_pos hn]
  · intro n hz
    have h0 : 0 ≤ n_eff N n := by omega
    have htn : (n_eff N n).toNat = 0 := by
      rw [hz]
      rfl
    refine ⟨?_, ?_, ?_⟩
    · apply select_of_pick_ok_empty e rand clu _ _ h0
      rw [htn]
      rw [show ([] : List (Fin N)) = rand.take 0 from (List.take_zero rand).symm]
      exact pick_default e rand clu 0 "random"
        ⟨by decide, by decide, by decide, by decide⟩ (Nat.zero_le N)
    · apply select_of_pick_ok_empty e rand clu _ _ h0
      rw [htn]
      rw [show ([] : List (Fin N)) = (sortedIdx e.h).take 0 from
        (List.take_zero _).symm]
      exact pick_lowest e rand clu 0 (by omega)
    · apply select_of_pick_ok e rand clu _ _ h0
      · rw [htn]
        exact pick_highest_zero e rand clu
      · exact sortedIdx_ne_nil e.h hN
  · intro n hgt
    have h0 : 0 ≤ n_eff N n := by omega
    have htn : N < (n_eff N n).toNat := by omega
    refine ⟨?_, ?_, ?_⟩
    · apply select_of_pick_err e rand clu _ _ h0
      exact pick_default_err e rand clu _ "random"
        ⟨by decide, by decide, by decide, by decide⟩ (by omega)
    · apply select_of_pick_err e rand clu _ _ h0
      exact pick_lowest_err e rand clu _ (by omega)
    · apply select_of_pick_err e rand clu _ _ h0
      exact pick_highest_err e rand clu _ (by omega)

/-- Witness for `n_eff_resolution` on `e4`: integer counts pass through
rounding unchanged, and a fractional `n = 1/25` resolves to count `0`
yet HIGHEST succeeds. -/
theorem n_eff_resolution_witness :
    n_eff 4 ((2 : ℕ) : ℚ) = 2 ∧
    n_eff 4 (1/25) = roundHalfEven ((1/25) * 4) ∧
    select e4 rand4 clu4 (1/25) "highest" =
      .ok (sortedIdx e4.h, score e4 (sortedIdx e4.h)) := by
  have hz : n_eff 4 (1/25 : ℚ) = 0 := by
    have hfl : ⌊(1/25 : ℚ) * 4⌋ = 0 := by
      rw [Int.floor_eq_zero_iff]
      constructor <;> norm_num
    norm_num [n_eff, roundHalfEven, hfl]
  exact ⟨(n_eff_resolution e4 rand4 clu4 (by norm_num)).1 2 (by norm_num),
    (n_eff_resolution e4 rand4 clu4 (by norm_num)).2.2.1 (1/25) (by norm_num),
    ((n_eff_resolution e4 rand4 clu4 (by norm_num)).2.2.2.1 (1/25) hz).2.2⟩

/-- C3 counterexample: with `n = 1/25` on the 4-row engine the effective
count resolves to `round(4/25) = 0`, not to the claimed minimum of `1`,
and `select` does not fail: the HIGHEST strategy returns all 4 indices. -/
theorem fraction_zero_count_succeeds :
    (select e4 rand4 clu4 (1/25) "highest").map (fun p => p.1.length)
      = .ok 4 := by
  have hz : n_eff 4 (1/25 : ℚ) = 0 := by
    have hfl : ⌊(1/25 : ℚ) * 4⌋ = 0 := by
      rw [Int.floor_eq_zero_iff]
      constructor <;> norm_num
    norm_num [n_eff, roundHalfEven, hfl]
  have h0 : 0 ≤ n_eff 4 (1/25 : ℚ) := by omega
  have htn : (n_eff 4 (1/25 : ℚ)).toNat = 0 := by
    rw [hz]
    rfl
  have hpick : pickSurrogates e4 rand4 clu4 (n_eff 4 (1/25 : ℚ)).toNat
      "highest" = .ok (sortedIdx e4.h) := by
    rw [htn]
    exact pick_highest_zero e4 rand4 clu4
  rw [select_of_pick_ok e4 rand4 clu4 _ _ h0 _ hpick
    (sortedIdx_ne_nil e4.h (by norm_num))]
  simp [Except.map, sortedIdx_length]

/-- C6 (amended): for effective counts `k ∈ [2, N]`, BALANCED returns the
`⌊k/2⌋` highest-leverage indices (each of leverage at least that of any
index outside that part) followed by the remaining `k - ⌊k/2⌋` = `⌈k/2⌉`
lowest-leverage indices, and the two parts are disjoint (in particular
when all leverage values are distinct).  At `k = 1` the concatenation
claim fails: see `balanced_one_not_spec`. -/
theorem balanced_concat_structure {N D : ℕ} (e : Engine N D)
    (rand : List (Fin N)) (clu : Fin N → ℕ) (k : ℕ)
    (hk2 : 2 ≤ k) (hkN : k ≤ N) :
    select e rand clu (k : ℚ) "balanced" =
      .ok ((sortedIdx e.h).drop (N - k / 2) ++
          (sortedIdx e.h).take (k - k / 2),
        score e ((sortedIdx e.h).drop (N - k / 2) ++
          (sortedIdx e.h).take (k - k / 2))) ∧
    ((sortedIdx e.h).drop (N - k / 2)).length = k / 2 ∧
    ((sortedIdx e.h).take (k - k / 2)).length = k - k / 2 ∧
    (∀ a ∈ (sortedIdx e.h).drop (N - k / 2), ∀ j : Fin N,
      j ∉ (sortedIdx e.h).drop (N - k / 2) → e.h j ≤ e.h a) ∧
    (∀ b ∈ (sortedIdx e.h).take (k - k / 2), ∀ j : Fin N,
      j ∉ (sortedIdx e.h).take (k - k / 2) → e.h b ≤ e.h j) ∧
    ((sortedIdx e.h).drop (N - k / 2)).Disjoint
      ((sortedIdx e.h).take (k - k / 2)) := by
  have h0 : 0 ≤ n_eff N (k : ℚ) := by
    rw [n_eff_natCast k (by omega)]
    omega
  have htn : (n_eff N (k : ℚ)).toNat = k := n_eff_natCast_toNat k (by omega)
  have hlA : ((sortedIdx e.h).drop (N - k / 2)).length = k / 2 := by
    rw [List.length_drop, sortedIdx_length]
    omega
  have hlB : ((sortedIdx e.h).take (k - k / 2)).length = k - k / 2 := by
    rw [List.length_take, sortedIdx_length]
    omega
  refine ⟨?_, hlA, hlB, ?_, ?_, ?_⟩
  · apply select_of_pick_ok e rand clu _ _ h0
    · rw [htn]
      exact pick_balanced e rand clu k hk2 hkN
    · intro hnil
      have hlen := congrArg List.length hnil
      rw [List.length_append, hlA, hlB] at hlen
      simp at hlen
      omega
  · intro a ha j hj
    have hjmem : j ∈ (sortedIdx e.h).take (N - k / 2) := by
      have : j ∈ (sortedIdx e.h).take (N - k / 2) ++
          (sortedIdx e.h).drop (N - k / 2) := by
        rw [List.take_append_drop]
        exact mem_sortedIdx e.h j
      rcases List.mem_append.mp this with hmem | hmem
      · exact hmem
      · exact absurd hmem hj
    exact hOrd_le ((sortedIdx_sorted e.h).rel_of_mem_take_of_mem_drop
      hjmem ha)
  · intro b hb j hj
    have hjmem : j ∈ (sortedIdx e.h).drop (k - k / 2) := by
      have : j ∈ (sortedIdx e.h).take (k - k / 2) ++
          (sortedIdx e.h).drop (k - k / 2) := by
        rw [List.take_append_drop]
        exact mem_sortedIdx e.h j
      rcases List.mem_append.mp this with hmem | hmem
      · exact absurd hmem hj
      · exact hmem
    exact hOrd_le ((sortedIdx_sorted e.h).rel_of_mem_take_of_mem_drop
      hb hjmem)
  · exact List.disjoint_symm
      (List.disjoint_take_drop (sortedIdx_nodup e.h) (by omega))

/-- Witness for `balanced_concat_structure` on `e4` with `k = 2`. -/
theorem balanced_concat_structure_witness :
    select e4 rand4 clu4 ((2 : ℕ) : ℚ) "balanced" =
      .ok ((sortedIdx e4.h).drop 3 ++ (sortedIdx e4.h).take 1,
        score e4 ((sortedIdx e4.h).drop 3 ++ (sortedIdx e4.h).take 1)) ∧
    ((sortedIdx e4.h).drop 3).length = 1 ∧
    ((sortedIdx e4.h).take 1).length = 1 :=
  ⟨(balanced_concat_structure e4 rand4 clu4 2 (by norm_num) (by norm_num)).1,
    (balanced_concat_structure e4 rand4 clu4 2 (by norm_num)
      (by norm_num)).2.1,
    (balanced_concat_structure e4 rand4 clu4 2 (by norm_num)
      (by norm_num)).2.2.1⟩

/-- C6 counterexample: at effective count 1 the BALANCED output is not
the spec's concatenation of `⌊1/2⌋ = 0` highest-leverage indices and `1`
lowest-leverage index — the code returns five entries instead of one. -/
theorem balanced_one_not_spec :
    (select e4 rand4 clu4 ((1 : ℕ) : ℚ) "balanced").map (fun p => p.1) ≠
      .ok (balancedSpec e4.h 1) := by
  have h0 : 0 ≤ n_eff 4 ((1 : ℕ) : ℚ) := by
    rw [n_eff_natCast 1 le_rfl]
    omega
  have htn : (n_eff 4 ((1 : ℕ) : ℚ)).toNat = 1 :=
    n_eff_natCast_toNat 1 le_rfl
  have hpick : pickSurrogates e4 rand4 clu4 (n_eff 4 ((1 : ℕ) : ℚ)).toNat
      "balanced" = .ok (sortedIdx e4.h ++ (sortedIdx e4.h).take 1) := by
    rw [htn]
    exact pick_balanced_one e4 rand4 clu4 (by norm_num)
  have hne : sortedIdx e4.h ++ (sortedIdx e4.h).take 1 ≠ [] := by
    intro hnil
    have hlen := congrArg List.length hnil
    rw [List.length_append, sortedIdx_length] at hlen
    simp at hlen
  rw [select_of_pick_ok e4 rand4 clu4 _ _ h0 _ hpick hne]
  intro hcon
  simp only [Except.map, Except.ok.injEq] at hcon
  have hlen := congrArg List.length hcon
  unfold balancedSpec highestKSpec at hlen
  simp only [List.length_append, List.length_drop, List.length_take,
    sortedIdx_length] at hlen
  omega

/-- C9: a strategy identifier outside the known set does not raise but
behaves exactly as RANDOM — the same branch runs, returning the distinct
sample described by the injected random oracle. -/
theorem unknown_strategy_matches_random {N D : ℕ} (e : Engine N D)
    (rand : List (Fin N)) (clu : Fin N → ℕ) (n : ℚ) (strategy : String)
    (hunk : strategy ∉ (["random", "lowest", "highest", "balanced",
      "hierarchical"] : List String))
    (hk1 : 1 ≤ n_eff N n) (hkN : n_eff N n ≤ (N : ℤ))
    (hlen : rand.length = N) (hnd : rand.Nodup) :
    select e rand clu n strategy = select e rand clu n "random" ∧
    goodSelection (n_eff N n).toNat (select e rand clu n strategy) := by
  have hus : strategy ≠ "lowest" ∧ strategy ≠ "highest" ∧
      strategy ≠ "balanced" ∧ strategy ≠ "hierarchical" := by
    simp only [List.mem_cons, List.not_mem_nil, or_false, not_or] at hunk
    exact ⟨hunk.2.1, hunk.2.2.1, hunk.2.2.2.1, hunk.2.2.2.2⟩
  have h0 : 0 ≤ n_eff N n := by omega
  have hKN : (n_eff N n).toNat ≤ N := by omega
  have hK1 : 1 ≤ (n_eff N n).toNat := by omega
  have hl : (rand.take (n_eff N n).toNat).length = (n_eff N n).toNat := by
    rw [List.length_take, hlen]
    omega
  have hner : rand.take (n_eff N n).toNat ≠ [] := by
    intro hnil
    rw [hnil] at hl
    simp at hl
    omega
  have hsel : select e rand clu n strategy =
      .ok (rand.take (n_eff N n).toNat,
        score e (rand.take (n_eff N n).toNat)) :=
    select_of_pick_ok e rand clu _ _ h0 _
      (pick_default e rand clu _ strategy hus hKN) hner
  have hselr : select e rand clu n "random" =
      .ok (rand.take (n_eff N n).toNat,
        score e (rand.take (n_eff N n).toNat)) :=
    select_of_pick_ok e rand clu _ _ h0 _
      (pick_default e rand clu _ "random"
        ⟨by decide, by decide, by decide, by decide⟩ hKN) hner
  exact ⟨hsel.trans hselr.symm,
    rand.take (n_eff N n).toNat, score e (rand.take (n_eff N n).toNat),
    hsel, hl, hnd.sublist (List.take_sublist _ rand), fun i _ => i.isLt⟩

/-- Witness for `unknown_strategy_matches_random` on `e4` with the
unknown identifier `"alphabetical"` and `n = 2`. -/
theorem unknown_strategy_matches_random_witness :
    select e4 rand4 clu4 ((2 : ℕ) : ℚ) "alphabetical" =
      select e4 rand4 clu4 ((2 : ℕ) : ℚ) "random" :=
  (unknown_strategy_matches_random e4 rand4 clu4 ((2 : ℕ) : ℚ)
    "alphabetical" (by decide)
    (by rw [n_eff_natCast 2 (by norm_num)]; omega)
    (by rw [n_eff_natCast 2 (by norm_num)]; omega)
    (by decide) (by decide)).1

/-- C10: the cluster member list is gathered in ascending row order, and
the chosen representative is a member at minimal Euclidean distance to
the cluster centroid; among equidistant minimisers the earliest position
— hence the lowest row index — wins, so the choice is deterministic for
a fixed clustering. -/
theorem medoid_min_dist_lowest_index {N D : ℕ}
    (X : Matrix (Fin N) (Fin D) ℝ) (clu : Fin N → ℕ) (cl : ℕ)
    (hne : clusterMembers N clu cl ≠ []) :
    List.Sorted (· < ·) (clusterMembers N clu cl) ∧
    ∃ r, medoidIdx X (clusterMembers N clu cl) = some r ∧
      r ∈ clusterMembers N clu cl ∧
      (∀ m ∈ clusterMembers N clu cl,
        distToCentroid X (clusterMembers N clu cl) r ≤
          distToCentroid X (clusterMembers N clu cl) m) ∧
      (∀ m ∈ clusterMembers N clu cl,
        distToCentroid X (clusterMembers N clu cl) m =
          distToCentroid X (clusterMembers N clu cl) r → r ≤ m) := by
  have hsort := clusterMembers_sorted (N := N) clu cl
  refine ⟨hsort, ?_⟩
  obtain ⟨a, t, hat⟩ := List.exists_cons_of_ne_nil hne
  rw [hat] at hsort
  rw [hat]
  have h1 : List.Sorted (· < ·) t := (List.sorted_cons.mp hsort).2
  have h2 : ∀ x ∈ t, a < x := (List.sorted_cons.mp hsort).1
  obtain ⟨hmin, htie⟩ := argminList_spec (distToCentroid X (a :: t)) a t h1 h2
  exact ⟨_, rfl, argminList_mem _ a t, hmin, htie⟩

/-- Witness for `medoid_min_dist_lowest_index` on `e4.X` with a single
all-in-one cluster. -/
theorem medoid_min_dist_lowest_index_witness :
    List.Sorted (· < ·) (clusterMembers 4 (fun _ => 0) 0) :=
  (medoid_min_dist_lowest_index e4.X (fun _ => 0) 0 (by decide)).1

end Claims

end SurrogateSelection
